import Mathlib

/-!
Verification of the pattern-matching core of `secretHunter.py`.

The program's core consists of three compiled regular expressions and the
`re.search` calls applied to each stripped line (secretHunter.py, lines 31-39
and 101-103):

  email_regex          = r"[a-zA-Z0-9._%+-]+@[a-zA-Z0-9.-]+\.[a-zA-Z]{2,4}"
  sensitive_data_regex = r"([\w\"]*password[\w\"]|password)*\s*[:=]\s*['\"](.*?)['\"]"  (IGNORECASE)
  api_key_regex        = r"api[_-]?key\s*[:=]\s*['\"](.*?)['\"]"                        (IGNORECASE)

We embed Python's backtracking semantics for exactly the constructs these
patterns use: character classes, concatenation, alternation (ordered choice),
greedy `*`/`+`/`?`/`{m,n}`, and the lazy `.*?`.  A match attempt at a given
position yields the list of possible remainders of the input in Python's
backtracking priority order; `re.search` scans start positions left to right
and returns the span consumed by the highest-priority match at the first
position that matches at all (`match.group()` is that whole span, since the
patterns have no lookaround).

Character classes are modelled over ASCII (`\w`, and the case folding done by
`re.IGNORECASE`, are restricted to their ASCII behaviour).
-/

namespace SecretHunter

/-- ASCII lowercasing: models the case folding performed by Python's
`re.IGNORECASE` flag on the letters appearing in the patterns. -/
def lowerChar (c : Char) : Char :=
  match c with
  | 'A' => 'a'
  | 'B' => 'b'
  | 'C' => 'c'
  | 'D' => 'd'
  | 'E' => 'e'
  | 'F' => 'f'
  | 'G' => 'g'
  | 'H' => 'h'
  | 'I' => 'i'
  | 'J' => 'j'
  | 'K' => 'k'
  | 'L' => 'l'
  | 'M' => 'm'
  | 'N' => 'n'
  | 'O' => 'o'
  | 'P' => 'p'
  | 'Q' => 'q'
  | 'R' => 'r'
  | 'S' => 's'
  | 'T' => 't'
  | 'U' => 'u'
  | 'V' => 'v'
  | 'W' => 'w'
  | 'X' => 'x'
  | 'Y' => 'y'
  | 'Z' => 'z'
  | other => other

/-- The class `[a-zA-Z0-9._%+-]` (local part of `email_regex`). -/
def isEmailLocalChar (c : Char) : Bool :=
  c.isAlpha || c.isDigit || c == '.' || c == '_' || c == '%' || c == '+' || c == '-'

/-- The class `[a-zA-Z0-9.-]` (domain part of `email_regex`). -/
def isEmailDomainChar (c : Char) : Bool :=
  c.isAlpha || c.isDigit || c == '.' || c == '-'

/-- The class `[a-zA-Z]` (TLD letters of `email_regex`). -/
def isAlphaChar (c : Char) : Bool :=
  c.isAlpha

/-- Python's `\w` (word character), restricted to ASCII. -/
def isWordChar (c : Char) : Bool :=
  c.isAlpha || c.isDigit || c == '_'

/-- The class `[\w\"]` used around `password` in `sensitive_data_regex`. -/
def isWordOrDq (c : Char) : Bool :=
  isWordChar c || c == '\"'

/-- Python's `\s`, restricted to ASCII: space, tab, newline, carriage
return, vertical tab, form feed. -/
def isSpaceChar (c : Char) : Bool :=
  c == ' ' || c == '\t' || c == '\n' || c == '\r' || c == '\x0b' || c == '\x0c'

/-- The class `['\"]` (either quote character). -/
def isQuoteChar (c : Char) : Bool :=
  c == '\'' || c == '\"'

/-- The class `[:=]` (assignment separator). -/
def isColonEq (c : Char) : Bool :=
  c == ':' || c == '='

/-- Python's `.` without `re.DOTALL`: any character except newline. -/
def isDotChar (c : Char) : Bool :=
  c != '\n'

/-- The class `[_-]` between `api` and `key` in `api_key_regex`. -/
def isUnderscoreHyphen (c : Char) : Bool :=
  c == '_' || c == '-'

/-- `pat` is a prefix of the second list. -/
def isPrefixL : List Char → List Char → Bool
  | [], _ => true
  | _ :: _, [] => false
  | a :: as, b :: bs => a == b && isPrefixL as bs

/-- `pat` occurs as a contiguous substring of the second list. -/
def hasSubstr (pat : List Char) : List Char → Bool
  | [] => isPrefixL pat []
  | c :: s => isPrefixL pat (c :: s) || hasSubstr pat s

/-- Abstract syntax of the regex fragment the three patterns use.
`alt` is Python's ordered choice; `starG` is the greedy `*`, `starL`
the lazy `*?`. -/
inductive Regex where
  | eps : Regex
  | cls : (Char → Bool) → Regex
  | cat : Regex → Regex → Regex
  | alt : Regex → Regex → Regex
  | starG : Regex → Regex
  | starL : Regex → Regex

/-- A literal character (case-sensitive). -/
def Regex.lit (c : Char) : Regex := .cls (fun x => x == c)

/-- The class of characters matching the (lowercase) letter `ch` under
`re.IGNORECASE`. -/
def litCIp (ch : Char) (x : Char) : Bool := lowerChar x == ch

/-- A literal character under `re.IGNORECASE` (argument is lowercase). -/
def Regex.litCI (c : Char) : Regex := .cls (litCIp c)

/-- A literal word under `re.IGNORECASE`. -/
def strCI (cs : List Char) : Regex :=
  cs.foldr (fun c r => .cat (.litCI c) r) .eps

/-- Greedy `+`, desugared as in Python to one copy followed by a greedy star. -/
def Regex.plus (r : Regex) : Regex := .cat r (.starG r)

/-- Greedy `?`: prefer matching `r`, fall back to the empty match. -/
def Regex.opt (r : Regex) : Regex := .alt r .eps

/-- Exactly `n` copies of `r`. -/
def repExact (r : Regex) : Nat → Regex
  | 0 => .eps
  | n + 1 => .cat r (repExact r n)

/-- At most `n` copies of `r`, greedily preferring more copies. -/
def repOpt (r : Regex) : Nat → Regex
  | 0 => .eps
  | n + 1 => .alt (.cat r (repOpt r n)) .eps

/-- Greedy counted repetition `r{lo,hi}`. -/
def repRange (r : Regex) (lo hi : Nat) : Regex :=
  .cat (repExact r lo) (repOpt r (hi - lo))

/-- Structural size of a regex, used to bound the recursion depth of the
matcher. -/
def szR : Regex → Nat
  | .eps => 1
  | .cls _ => 1
  | .cat r1 r2 => 1 + szR r1 + szR r2
  | .alt r1 r2 => 1 + szR r1 + szR r2
  | .starG r => 1 + szR r
  | .starL r => 1 + szR r

/-- Fuelled backtracking matcher.  `mresF n r s` is the list of all possible
remainders of `s` after `r` matches a prefix of `s`, in Python's backtracking
priority order: for `alt` the left branch is explored first, the greedy star
prefers another iteration, the lazy star prefers stopping.  A star iteration
must consume input (all star bodies in the three patterns consume at least one
character, which is also how Python's engine breaks empty-match loops).
Fuel only makes the recursion structural; `fuelB` below always suffices. -/
def mresF : Nat → Regex → List Char → List (List Char)
  | 0, _, _ => []
  | _ + 1, .eps, s => [s]
  | _ + 1, .cls _, [] => []
  | _ + 1, .cls p, c :: s => if p c then [s] else []
  | n + 1, .cat r1 r2, s => (mresF n r1 s).flatMap (fun s2 => mresF n r2 s2)
  | n + 1, .alt r1 r2, s => mresF n r1 s ++ mresF n r2 s
  | n + 1, .starG r, s =>
      ((mresF n r s).flatMap
        (fun s2 => if s2.length < s.length then mresF n (.starG r) s2 else [])) ++ [s]
  | n + 1, .starL r, s =>
      [s] ++ ((mresF n r s).flatMap
        (fun s2 => if s2.length < s.length then mresF n (.starL r) s2 else []))

/-- Sufficient fuel for `mresF` on `r` and `s`. -/
def fuelB (r : Regex) (s : List Char) : Nat := szR r * (s.length + 1)

/-- All match remainders of `r` on a prefix of `s`, in Python's backtracking
priority order. -/
def mres (r : Regex) (s : List Char) : List (List Char) := mresF (fuelB r s) r s

/-- `re.search`: try each start position from the left; at the first position
where the pattern matches, return the span consumed by the highest-priority
match (this is `match.group()`). -/
def searchSpans (r : Regex) : List Char → Option (List Char)
  | [] =>
      match (mres r []).head? with
      | some _ => some []
      | none => none
  | c :: s =>
      match (mres r (c :: s)).head? with
      | some rem => some (List.take ((c :: s).length - rem.length) (c :: s))
      | none => searchSpans r s

theorem szR_pos (r : Regex) : 1 ≤ szR r := by
  cases r <;> simp [szR] <;> omega

theorem fuelB_pos (r : Regex) (s : List Char) : 1 ≤ fuelB r s := by
  have h1 := szR_pos r
  have h2 : szR r * 1 ≤ szR r * (s.length + 1) :=
    Nat.mul_le_mul_left (szR r) (by omega)
  simp only [fuelB]
  omega

theorem flatMapCongr {α β : Type} {l : List α} {f g : α → List β}
    (h : ∀ a ∈ l, f a = g a) : l.flatMap f = l.flatMap g := by
  induction l with
  | nil => rfl
  | cons a t ih =>
      simp only [List.flatMap_cons]
      rw [h a (by simp), ih (fun b hb => h b (by simp [hb]))]

/-- The matcher only ever consumes a prefix: every remainder it returns is a
suffix of the input. -/
theorem mresF_suffix : ∀ (n : Nat) (r : Regex) (s rem : List Char),
    rem ∈ mresF n r s → ∃ u, s = u ++ rem := by
  intro n
  induction n with
  | zero => intro r s rem h; simp [mresF] at h
  | succ n ih =>
      intro r s rem h
      cases r with
      | eps =>
          simp [mresF] at h
          exact ⟨[], by simp [h]⟩
      | cls p =>
          cases s with
          | nil => simp [mresF] at h
          | cons c t =>
              by_cases hp : p c
              · simp [mresF, hp] at h
                exact ⟨[c], by simp [h]⟩
              · simp [mresF, hp] at h
      | cat r1 r2 =>
          simp only [mresF, List.mem_flatMap] at h
          obtain ⟨s2, hs2, hrem⟩ := h
          obtain ⟨u1, hu1⟩ := ih r1 s s2 hs2
          obtain ⟨u2, hu2⟩ := ih r2 s2 rem hrem
          exact ⟨u1 ++ u2, by rw [hu1, hu2, List.append_assoc]⟩
      | alt r1 r2 =>
          simp only [mresF, List.mem_append] at h
          rcases h with h | h
          · exact ih r1 s rem h
          · exact ih r2 s rem h
      | starG r =>
          simp only [mresF, List.mem_append, List.mem_flatMap] at h
          rcases h with ⟨s2, hs2, hrem⟩ | h
          · split at hrem
            · obtain ⟨u1, hu1⟩ := ih r s s2 hs2
              obtain ⟨u2, hu2⟩ := ih (.starG r) s2 rem hrem
              exact ⟨u1 ++ u2, by rw [hu1, hu2, List.append_assoc]⟩
            · simp at hrem
          · simp at h
            exact ⟨[], by simp [h]⟩
      | starL r =>
          simp only [mresF, List.mem_append, List.mem_flatMap] at h
          rcases h with h | ⟨s2, hs2, hrem⟩
          · simp at h
            exact ⟨[], by simp [h]⟩
          · split at hrem
            · obtain ⟨u1, hu1⟩ := ih r s s2 hs2
              obtain ⟨u2, hu2⟩ := ih (.starL r) s2 rem hrem
              exact ⟨u1 ++ u2, by rw [hu1, hu2, List.append_assoc]⟩
            · simp at hrem

/-- Above the `fuelB` threshold the fuel does not matter: `mresF` computes the
same list for any two sufficient fuels. -/
theorem mresF_stable : ∀ (n : Nat) (r : Regex) (s : List Char) (m : Nat),
    fuelB r s ≤ n → fuelB r s ≤ m → mresF n r s = mresF m r s := by
  intro n
  induction n using Nat.strong_induction_on with
  | _ n ih =>
      intro r s m hn hm
      have hpos := fuelB_pos r s
      obtain ⟨n', rfl⟩ : ∃ k, n = k + 1 := ⟨n - 1, by omega⟩
      obtain ⟨m', rfl⟩ : ∃ k, m = k + 1 := ⟨m - 1, by omega⟩
      cases r with
      | eps => simp [mresF]
      | cls p => cases s <;> simp [mresF]
      | cat r1 r2 =>
          have e1 : fuelB (.cat r1 r2) s = (s.length + 1) + fuelB r1 s + fuelB r2 s := by
            simp only [fuelB, szR]; ring
          rw [e1] at hn hm
          simp only [mresF]
          rw [ih n' (by omega) r1 s m' (by omega) (by omega)]
          refine flatMapCongr (fun s2 hs2 => ?_)
          obtain ⟨u, hu⟩ := mresF_suffix m' r1 s s2 hs2
          have hlen : s2.length ≤ s.length := by
            rw [hu]; simp
          have h2 : fuelB r2 s2 ≤ fuelB r2 s := by
            simp only [fuelB]
            exact Nat.mul_le_mul_left (szR r2) (by omega)
          exact ih n' (by omega) r2 s2 m' (by omega) (by omega)
      | alt r1 r2 =>
          have e1 : fuelB (.alt r1 r2) s = (s.length + 1) + fuelB r1 s + fuelB r2 s := by
            simp only [fuelB, szR]; ring
          rw [e1] at hn hm
          simp only [mresF]
          rw [ih n' (by omega) r1 s m' (by omega) (by omega),
            ih n' (by omega) r2 s m' (by omega) (by omega)]
      | starG r =>
          have e1 : fuelB (.starG r) s = (s.length + 1) + fuelB r s := by
            simp only [fuelB, szR]; ring
          have e2 : fuelB (.starG r) s = szR (.starG r) * s.length + szR (.starG r) := by
            simp only [fuelB]; ring
          have hA := szR_pos (.starG r)
          simp only [mresF]
          rw [ih n' (by rw [e1] at hn; omega) r s m' (by rw [e1] at hn; omega)
            (by rw [e1] at hm; omega)]
          refine congrArg (· ++ [s]) (flatMapCongr (fun s2 hs2 => ?_))
          by_cases hlt : s2.length < s.length
          · simp only [if_pos hlt]
            have h3 : fuelB (.starG r) s2 ≤ szR (.starG r) * s.length := by
              simp only [fuelB]
              exact Nat.mul_le_mul_left _ (by omega)
            rw [e2] at hn hm
            exact ih n' (by omega) (.starG r) s2 m' (by omega) (by omega)
          · simp only [if_neg hlt]
      | starL r =>
          have e1 : fuelB (.starL r) s = (s.length + 1) + fuelB r s := by
            simp only [fuelB, szR]; ring
          have e2 : fuelB (.starL r) s = szR (.starL r) * s.length + szR (.starL r) := by
            simp only [fuelB]; ring
          have hA := szR_pos (.starL r)
          simp only [mresF]
          rw [ih n' (by rw [e1] at hn; omega) r s m' (by rw [e1] at hn; omega)
            (by rw [e1] at hm; omega)]
          refine congrArg ([s] ++ ·) (flatMapCongr (fun s2 hs2 => ?_))
          by_cases hlt : s2.length < s.length
          · simp only [if_pos hlt]
            have h3 : fuelB (.starL r) s2 ≤ szR (.starL r) * s.length := by
              simp only [fuelB]
              exact Nat.mul_le_mul_left _ (by omega)
            rw [e2] at hn hm
            exact ih n' (by omega) (.starL r) s2 m' (by omega) (by omega)
          · simp only [if_neg hlt]

/-- Any sufficient fuel computes `mres`. -/
theorem mresF_eq_mres (n : Nat) (r : Regex) (s : List Char) (h : fuelB r s ≤ n) :
    mresF n r s = mres r s :=
  mresF_stable n r s (fuelB r s) h (Nat.le_refl _)

theorem mres_suffix {r : Regex} {s rem : List Char} (h : rem ∈ mres r s) :
    ∃ u, s = u ++ rem :=
  mresF_suffix _ r s rem h

theorem mres_eps (s : List Char) : mres .eps s = [s] := by
  have h : fuelB .eps s = s.length + 1 := by simp [fuelB, szR]
  rw [mres, h]
  simp [mresF]

theorem mres_cls_nil (p : Char → Bool) : mres (.cls p) [] = [] := by
  have h : fuelB (.cls p) [] = 0 + 1 := by simp [fuelB, szR]
  rw [mres, h]
  simp [mresF]

theorem mres_cls_cons (p : Char → Bool) (c : Char) (s : List Char) :
    mres (.cls p) (c :: s) = if p c then [s] else [] := by
  have h : fuelB (.cls p) (c :: s) = (c :: s).length + 1 := by simp [fuelB, szR]
  rw [mres, h]
  simp [mresF]

theorem mres_cat (r1 r2 : Regex) (s : List Char) :
    mres (.cat r1 r2) s = (mres r1 s).flatMap (fun s2 => mres r2 s2) := by
  have hpos := fuelB_pos (.cat r1 r2) s
  obtain ⟨K, hK⟩ : ∃ k, fuelB (.cat r1 r2) s = k + 1 := ⟨fuelB (.cat r1 r2) s - 1, by omega⟩
  have e1 : fuelB (.cat r1 r2) s = (s.length + 1) + fuelB r1 s + fuelB r2 s := by
    simp only [fuelB, szR]; ring
  rw [mres, hK]
  simp only [mresF]
  rw [mresF_eq_mres K r1 s (by omega)]
  refine flatMapCongr (fun s2 hs2 => ?_)
  obtain ⟨u, hu⟩ := mres_suffix hs2
  have hlen : s2.length ≤ s.length := by rw [hu]; simp
  have h2 : fuelB r2 s2 ≤ fuelB r2 s := by
    simp only [fuelB]
    exact Nat.mul_le_mul_left (szR r2) (by omega)
  exact mresF_eq_mres K r2 s2 (by omega)

theorem mres_alt (r1 r2 : Regex) (s : List Char) :
    mres (.alt r1 r2) s = mres r1 s ++ mres r2 s := by
  have hpos := fuelB_pos (.alt r1 r2) s
  obtain ⟨K, hK⟩ : ∃ k, fuelB (.alt r1 r2) s = k + 1 := ⟨fuelB (.alt r1 r2) s - 1, by omega⟩
  have e1 : fuelB (.alt r1 r2) s = (s.length + 1) + fuelB r1 s + fuelB r2 s := by
    simp only [fuelB, szR]; ring
  rw [mres, hK]
  simp only [mresF]
  rw [mresF_eq_mres K r1 s (by omega), mresF_eq_mres K r2 s (by omega)]

theorem mres_starG (r : Regex) (s : List Char) :
    mres (.starG r) s =
      ((mres r s).flatMap
        (fun s2 => if s2.length < s.length then mres (.starG r) s2 else [])) ++ [s] := by
  have hpos := fuelB_pos (.starG r) s
  obtain ⟨K, hK⟩ : ∃ k, fuelB (.starG r) s = k + 1 := ⟨fuelB (.starG r) s - 1, by omega⟩
  have e1 : fuelB (.starG r) s = (s.length + 1) + fuelB r s := by
    simp only [fuelB, szR]; ring
  have e2 : fuelB (.starG r) s = szR (.starG r) * s.length + szR (.starG r) := by
    simp only [fuelB]; ring
  have hA := szR_pos (.starG r)
  rw [mres, hK]
  simp only [mresF]
  rw [mresF_eq_mres K r s (by omega)]
  refine congrArg (· ++ [s]) (flatMapCongr (fun s2 hs2 => ?_))
  by_cases hlt : s2.length < s.length
  · simp only [if_pos hlt]
    have h3 : fuelB (.starG r) s2 ≤ szR (.starG r) * s.length := by
      simp only [fuelB]
      exact Nat.mul_le_mul_left _ (by omega)
    exact mresF_eq_mres K (.starG r) s2 (by omega)
  · simp only [if_neg hlt]

theorem mres_starL (r : Regex) (s : List Char) :
    mres (.starL r) s =
      [s] ++ ((mres r s).flatMap
        (fun s2 => if s2.length < s.length then mres (.starL r) s2 else [])) := by
  have hpos := fuelB_pos (.starL r) s
  obtain ⟨K, hK⟩ : ∃ k, fuelB (.starL r) s = k + 1 := ⟨fuelB (.starL r) s - 1, by omega⟩
  have e1 : fuelB (.starL r) s = (s.length + 1) + fuelB r s := by
    simp only [fuelB, szR]; ring
  have e2 : fuelB (.starL r) s = szR (.starL r) * s.length + szR (.starL r) := by
    simp only [fuelB]; ring
  have hA := szR_pos (.starL r)
  rw [mres, hK]
  simp only [mresF]
  rw [mresF_eq_mres K r s (by omega)]
  refine congrArg ([s] ++ ·) (flatMapCongr (fun s2 hs2 => ?_))
  by_cases hlt : s2.length < s.length
  · simp only [if_pos hlt]
    have h3 : fuelB (.starL r) s2 ≤ szR (.starL r) * s.length := by
      simp only [fuelB]
      exact Nat.mul_le_mul_left _ (by omega)
    exact mresF_eq_mres K (.starL r) s2 (by omega)
  · simp only [if_neg hlt]

theorem mem_of_head?_some {α : Type} {l : List α} {a : α} (h : l.head? = some a) :
    a ∈ l := by
  cases l with
  | nil => simp at h
  | cons b t =>
      simp only [List.head?_cons, Option.some.injEq] at h
      simp [h]

/-- The search fails exactly when the pattern matches at no start position. -/
theorem searchSpans_none_iff (r : Regex) : ∀ s : List Char,
    searchSpans r s = none ↔ ∀ n, mres r (List.drop n s) = [] := by
  intro s
  induction s with
  | nil =>
      constructor
      · intro h n
        simp only [searchSpans] at h
        cases hh : (mres r []).head? with
        | some a => rw [hh] at h; exact absurd h (by simp)
        | none =>
            simp only [List.drop_nil]
            exact List.head?_eq_none_iff.mp hh
      · intro h
        have h0 := h 0
        simp only [List.drop_nil] at h0
        simp only [searchSpans, h0, List.head?_nil]
  | cons c s ih =>
      constructor
      · intro h n
        simp only [searchSpans] at h
        cases hh : (mres r (c :: s)).head? with
        | some rem => rw [hh] at h; exact absurd h (by simp)
        | none =>
            rw [hh] at h
            cases n with
            | zero => simpa using List.head?_eq_none_iff.mp hh
            | succ n => simpa using (ih.mp h) n
      · intro h
        have h0 := h 0
        simp only [List.drop_zero] at h0
        simp only [searchSpans, h0, List.head?_nil]
        exact ih.mpr (fun n => by simpa using h (n + 1))

/-- If the pattern matches at some suffix of `s`, the search succeeds. -/
theorem searchSpans_ne_none_of_suffix (r : Regex) {s m : List Char}
    (hsuf : ∃ u, s = u ++ m) (hne : mres r m ≠ []) :
    searchSpans r s ≠ none := by
  intro h
  obtain ⟨u, rfl⟩ := hsuf
  have := (searchSpans_none_iff r _).mp h u.length
  rw [List.drop_left] at this
  exact hne this

/-- A successful search decomposes the input: there is a first matching start
position `p`, the span is what the highest-priority match at `p` consumed, and
the pattern matches at no earlier position. -/
theorem searchSpans_some_spec (r : Regex) : ∀ (s u : List Char),
    searchSpans r s = some u →
    ∃ p rem, (mres r (List.drop p s)).head? = some rem ∧
      List.drop p s = u ++ rem ∧
      ∀ j, j < p → mres r (List.drop j s) = [] := by
  intro s
  induction s with
  | nil =>
      intro u h
      simp only [searchSpans] at h
      cases hh : (mres r []).head? with
      | none => rw [hh] at h; exact absurd h (by simp)
      | some rem =>
          rw [hh] at h
          have hu : u = [] := by
            have := Option.some.inj h
            simp [← this]
          obtain ⟨w, hw⟩ := mres_suffix (mem_of_head?_some hh)
          have hrem : rem = [] := by
            have := congrArg List.length hw
            simp at this
            exact List.length_eq_zero.mp (by omega)
          refine ⟨0, rem, by simpa using hh, ?_, by omega⟩
          simp [hu, hrem]
  | cons c s ih =>
      intro u h
      simp only [searchSpans] at h
      cases hh : (mres r (c :: s)).head? with
      | some rem =>
          rw [hh] at h
          obtain ⟨w, hw⟩ := mres_suffix (mem_of_head?_some hh)
          have hu : u = w := by
            have hlen : (c :: s).length - rem.length = w.length := by
              have := congrArg List.length hw
              simp at this ⊢
              omega
            have := Option.some.inj h
            rw [← this, hlen, hw, List.take_left]
          refine ⟨0, rem, by simpa using hh, by simpa [hu] using hw, by omega⟩
      | none =>
          rw [hh] at h
          obtain ⟨p, rem, h1, h2, h3⟩ := ih u h
          refine ⟨p + 1, rem, by simpa using h1, by simpa using h2, ?_⟩
          intro j hj
          cases j with
          | zero => simpa using List.head?_eq_none_iff.mp hh
          | succ j => simpa using h3 j (by omega)

theorem mem_mres_cat {r1 r2 : Regex} {s s2 s3 : List Char}
    (h1 : s2 ∈ mres r1 s) (h2 : s3 ∈ mres r2 s2) : s3 ∈ mres (.cat r1 r2) s := by
  rw [mres_cat]
  exact List.mem_flatMap.mpr ⟨s2, h1, h2⟩

theorem mem_mres_alt_left {r1 r2 : Regex} {s rem : List Char}
    (h : rem ∈ mres r1 s) : rem ∈ mres (.alt r1 r2) s := by
  rw [mres_alt]
  exact List.mem_append_left _ h

theorem mem_mres_alt_right {r1 r2 : Regex} {s rem : List Char}
    (h : rem ∈ mres r2 s) : rem ∈ mres (.alt r1 r2) s := by
  rw [mres_alt]
  exact List.mem_append_right _ h

theorem mem_mres_eps (s : List Char) : s ∈ mres .eps s := by
  rw [mres_eps]; simp

theorem mem_mres_cls {p : Char → Bool} {c : Char} (s : List Char)
    (h : p c = true) : s ∈ mres (.cls p) (c :: s) := by
  rw [mres_cls_cons]
  simp [h]

theorem mem_mres_starG_self (r : Regex) (s : List Char) :
    s ∈ mres (.starG r) s := by
  rw [mres_starG]; simp

theorem mem_mres_starG_step {r : Regex} {s s2 s3 : List Char}
    (h1 : s2 ∈ mres r s) (hlt : s2.length < s.length)
    (h2 : s3 ∈ mres (.starG r) s2) : s3 ∈ mres (.starG r) s := by
  rw [mres_starG]
  refine List.mem_append_left _ (List.mem_flatMap.mpr ⟨s2, h1, ?_⟩)
  rw [if_pos hlt]
  exact h2

theorem mem_mres_starL_self (r : Regex) (s : List Char) :
    s ∈ mres (.starL r) s := by
  rw [mres_starL]; simp

theorem mem_mres_starL_step {r : Regex} {s s2 s3 : List Char}
    (h1 : s2 ∈ mres r s) (hlt : s2.length < s.length)
    (h2 : s3 ∈ mres (.starL r) s2) : s3 ∈ mres (.starL r) s := by
  rw [mres_starL]
  refine List.mem_append_right _ (List.mem_flatMap.mpr ⟨s2, h1, ?_⟩)
  rw [if_pos hlt]
  exact h2

/-- A greedy star over a character class can consume any run of characters
of that class. -/
theorem starG_cls_mem (p : Char → Bool) : ∀ (m rest : List Char),
    (∀ c ∈ m, p c = true) → rest ∈ mres (.starG (.cls p)) (m ++ rest) := by
  intro m
  induction m with
  | nil => intro rest _; simpa using mem_mres_starG_self _ rest
  | cons c t ih =>
      intro rest h
      exact mem_mres_starG_step (mem_mres_cls _ (h c (by simp))) (by simp)
        (ih rest (fun d hd => h d (by simp [hd])))

/-- A lazy star over a character class can consume any run of characters of
that class. -/
theorem starL_cls_mem (p : Char → Bool) : ∀ (m rest : List Char),
    (∀ c ∈ m, p c = true) → rest ∈ mres (.starL (.cls p)) (m ++ rest) := by
  intro m
  induction m with
  | nil => intro rest _; simpa using mem_mres_starL_self _ rest
  | cons c t ih =>
      intro rest h
      exact mem_mres_starL_step (mem_mres_cls _ (h c (by simp))) (by simp)
        (ih rest (fun d hd => h d (by simp [hd])))

theorem repOpt_cls_mem (p : Char → Bool) : ∀ (n : Nat) (m rest : List Char),
    m.length ≤ n → (∀ c ∈ m, p c = true) →
    rest ∈ mres (repOpt (.cls p) n) (m ++ rest) := by
  intro n
  induction n with
  | zero =>
      intro m rest hlen _
      have hm : m = [] := List.length_eq_zero.mp (by omega)
      subst hm
      simpa [repOpt] using mem_mres_eps rest
  | succ n ih =>
      intro m rest hlen h
      cases m with
      | nil => simpa [repOpt] using mem_mres_alt_right (mem_mres_eps rest)
      | cons c t =>
          simp only [repOpt]
          refine mem_mres_alt_left (mem_mres_cat (mem_mres_cls _ (h c (by simp))) ?_)
          exact ih t rest (by simp at hlen; omega) (fun d hd => h d (by simp [hd]))

theorem repExact_cls_mem (p : Char → Bool) : ∀ (n : Nat) (m rest : List Char),
    m.length = n → (∀ c ∈ m, p c = true) →
    rest ∈ mres (repExact (.cls p) n) (m ++ rest) := by
  intro n
  induction n with
  | zero =>
      intro m rest hlen _
      have hm : m = [] := List.length_eq_zero.mp hlen
      subst hm
      simpa [repExact] using mem_mres_eps rest
  | succ n ih =>
      intro m rest hlen h
      cases m with
      | nil => simp at hlen
      | cons c t =>
          simp only [repExact]
          refine mem_mres_cat (mem_mres_cls _ (h c (by simp))) ?_
          exact ih t rest (by simpa using hlen) (fun d hd => h d (by simp [hd]))

theorem mres_cls_inv {p : Char → Bool} {s rem : List Char}
    (h : rem ∈ mres (.cls p) s) : ∃ c, s = c :: rem ∧ p c = true := by
  cases s with
  | nil => rw [mres_cls_nil] at h; simp at h
  | cons c t =>
      rw [mres_cls_cons] at h
      by_cases hp : p c
      · simp only [if_pos hp, List.mem_singleton] at h
        exact ⟨c, by simp [h], hp⟩
      · simp [if_neg hp] at h

theorem mres_cat_inv {r1 r2 : Regex} {s rem : List Char}
    (h : rem ∈ mres (.cat r1 r2) s) :
    ∃ s2, s2 ∈ mres r1 s ∧ rem ∈ mres r2 s2 := by
  rw [mres_cat] at h
  simpa using List.mem_flatMap.mp h

theorem mres_alt_inv {r1 r2 : Regex} {s rem : List Char}
    (h : rem ∈ mres (.alt r1 r2) s) : rem ∈ mres r1 s ∨ rem ∈ mres r2 s := by
  rw [mres_alt] at h
  simpa using h

theorem mres_eps_inv {s rem : List Char} (h : rem ∈ mres .eps s) : rem = s := by
  rw [mres_eps] at h
  simpa using h

/-- Inversion for a star over a class: whatever the star consumed is a run of
characters of the class. -/
theorem mres_starG_cls_inv (p : Char → Bool) : ∀ (k : Nat) (s rem : List Char),
    s.length ≤ k → rem ∈ mres (.starG (.cls p)) s →
    ∃ m, s = m ++ rem ∧ ∀ c ∈ m, p c = true := by
  intro k
  induction k with
  | zero =>
      intro s rem hlen h
      have hs : s = [] := List.length_eq_zero.mp (by omega)
      subst hs
      rw [mres_starG, mres_cls_nil] at h
      simp only [List.flatMap_nil, List.nil_append, List.mem_singleton] at h
      exact ⟨[], by simp [h], by simp⟩
  | succ k ih =>
      intro s rem hlen h
      rw [mres_starG] at h
      rcases List.mem_append.mp h with h | h
      · obtain ⟨s2, hs2, hin⟩ := List.mem_flatMap.mp h
        by_cases hlt : s2.length < s.length
        · rw [if_pos hlt] at hin
          obtain ⟨c, hsc, hpc⟩ := mres_cls_inv hs2
          obtain ⟨m, hm, hall⟩ := ih s2 rem (by rw [hsc] at hlen; simpa using hlen) hin
          refine ⟨c :: m, by rw [hsc, hm]; rfl, ?_⟩
          intro d hd
          rcases List.mem_cons.mp hd with hd | hd
          · rw [hd]; exact hpc
          · exact hall d hd
        · rw [if_neg hlt] at hin
          simp at hin
      · simp only [List.mem_singleton] at h
        exact ⟨[], by simp [h], by simp⟩

theorem repOpt_cls_inv (p : Char → Bool) : ∀ (n : Nat) (s rem : List Char),
    rem ∈ mres (repOpt (.cls p) n) s →
    ∃ m, s = m ++ rem ∧ m.length ≤ n ∧ ∀ c ∈ m, p c = true := by
  intro n
  induction n with
  | zero =>
      intro s rem h
      simp only [repOpt] at h
      exact ⟨[], by simp [mres_eps_inv h], by simp, by simp⟩
  | succ n ih =>
      intro s rem h
      simp only [repOpt] at h
      rcases mres_alt_inv h with h | h
      · obtain ⟨s2, hs2, hin⟩ := mres_cat_inv h
        obtain ⟨c, hsc, hpc⟩ := mres_cls_inv hs2
        obtain ⟨m, hm, hmlen, hall⟩ := ih s2 rem hin
        refine ⟨c :: m, by rw [hsc, hm]; rfl, by simpa using hmlen, ?_⟩
        intro d hd
        rcases List.mem_cons.mp hd with hd | hd
        · rw [hd]; exact hpc
        · exact hall d hd
      · exact ⟨[], by simp [mres_eps_inv h], by simp, by simp⟩

theorem repExact_cls_inv (p : Char → Bool) : ∀ (n : Nat) (s rem : List Char),
    rem ∈ mres (repExact (.cls p) n) s →
    ∃ m, s = m ++ rem ∧ m.length = n ∧ ∀ c ∈ m, p c = true := by
  intro n
  induction n with
  | zero =>
      intro s rem h
      simp only [repExact] at h
      exact ⟨[], by simp [mres_eps_inv h], by simp, by simp⟩
  | succ n ih =>
      intro s rem h
      simp only [repExact] at h
      obtain ⟨s2, hs2, hin⟩ := mres_cat_inv h
      obtain ⟨c, hsc, hpc⟩ := mres_cls_inv hs2
      obtain ⟨m, hm, hmlen, hall⟩ := ih s2 rem hin
      refine ⟨c :: m, by rw [hsc, hm]; rfl, by simpa using hmlen, ?_⟩
      intro d hd
      rcases List.mem_cons.mp hd with hd | hd
      · rw [hd]; exact hpc
      · exact hall d hd

/-- `email_regex = re.compile(r"[a-zA-Z0-9._%+-]+@[a-zA-Z0-9.-]+\.[a-zA-Z]{2,4}")`
(secretHunter.py, line 31). -/
def email_regex : Regex :=
  .cat (.plus (.cls isEmailLocalChar))
    (.cat (.lit '@')
      (.cat (.plus (.cls isEmailDomainChar))
        (.cat (.lit '.')
          (repRange (.cls isAlphaChar) 2 4))))

/-- The suffix `\s*[:=]\s*` shared by `sensitive_data_regex` and
`api_key_regex`. -/
def sepPart : Regex :=
  .cat (.starG (.cls isSpaceChar))
    (.cat (.cls isColonEq) (.starG (.cls isSpaceChar)))

/-- The suffix `['\"](.*?)['\"]` shared by `sensitive_data_regex` and
`api_key_regex` (the capture group does not affect `match.group()`). -/
def quotedValue : Regex :=
  .cat (.cls isQuoteChar) (.cat (.starL (.cls isDotChar)) (.cls isQuoteChar))

/-- The group `([\w\"]*password[\w\"]|password)` of `sensitive_data_regex`
(under `re.IGNORECASE`). -/
def passwordGroup : Regex :=
  .alt
    (.cat (.starG (.cls isWordOrDq))
      (.cat (strCI "password".data) (.cls isWordOrDq)))
    (strCI "password".data)

/-- `sensitive_data_regex =
re.compile(r"([\w\"]*password[\w\"]|password)*\s*[:=]\s*['\"](.*?)['\"]", re.IGNORECASE)`
(secretHunter.py, line 38). -/
def sensitive_data_regex : Regex :=
  .cat (.starG passwordGroup) (.cat sepPart quotedValue)

/-- `api_key_regex = re.compile(r"api[_-]?key\s*[:=]\s*['\"](.*?)['\"]", re.IGNORECASE)`
(secretHunter.py, line 39). -/
def api_key_regex : Regex :=
  .cat (strCI "api".data)
    (.cat (.opt (.cls isUnderscoreHyphen))
      (.cat (strCI "key".data) (.cat sepPart quotedValue)))

/-- `match_email = email_regex.search(line)` followed by `.group()`
(secretHunter.py, line 101). -/
def matchEmail (line : String) : Option String :=
  (searchSpans email_regex line.data).map String.mk

/-- `match_sensitive = sensitive_data_regex.search(line)` followed by
`.group()` (secretHunter.py, line 102). -/
def matchPassword (line : String) : Option String :=
  (searchSpans sensitive_data_regex line.data).map String.mk

/-- `match_api_key = api_key_regex.search(line)` followed by `.group()`
(secretHunter.py, line 103). -/
def matchApiKey (line : String) : Option String :=
  (searchSpans api_key_regex line.data).map String.mk

/-- A syntactically valid email-like token, following the spec's description:
`localpart@domain.tld` where the localpart is a nonempty run of
`[a-zA-Z0-9._%+-]`, the domain is a nonempty run of `[a-zA-Z0-9.-]` (shown
here as the part before the final dot), and the TLD is 2-4 letters. -/
def isEmailToken (t : List Char) : Prop :=
  ∃ l d e : List Char,
    t = l ++ '@' :: (d ++ '.' :: e) ∧
    l ≠ [] ∧ (∀ c ∈ l, isEmailLocalChar c = true) ∧
    d ≠ [] ∧ (∀ c ∈ d, isEmailDomainChar c = true) ∧
    2 ≤ e.length ∧ e.length ≤ 4 ∧ (∀ c ∈ e, isAlphaChar c = true)

/-- An email-like token occurs in `s` starting at position `i`. -/
def tokenStartsAt (s : List Char) (i : Nat) : Prop :=
  ∃ t rest, isEmailToken t ∧ List.drop i s = t ++ rest

/-- Completeness of `email_regex`: it matches at the start of any string that
begins with an email-like token, and can consume exactly that token. -/
theorem email_mres_complete {l d e rest : List Char}
    (hl : l ≠ []) (hlc : ∀ c ∈ l, isEmailLocalChar c = true)
    (hd : d ≠ []) (hdc : ∀ c ∈ d, isEmailDomainChar c = true)
    (he2 : 2 ≤ e.length) (he4 : e.length ≤ 4)
    (hec : ∀ c ∈ e, isAlphaChar c = true) :
    rest ∈ mres email_regex (l ++ '@' :: (d ++ '.' :: (e ++ rest))) := by
  obtain ⟨c0, lt, rfl⟩ : ∃ c0 lt, l = c0 :: lt := by
    cases l with
    | nil => exact absurd rfl hl
    | cons a b => exact ⟨a, b, rfl⟩
  obtain ⟨cd, dt, rfl⟩ : ∃ cd dt, d = cd :: dt := by
    cases d with
    | nil => exact absurd rfl hd
    | cons a b => exact ⟨a, b, rfl⟩
  simp only [email_regex, Regex.plus, Regex.lit]
  have hloc : ('@' :: (cd :: dt ++ '.' :: (e ++ rest))) ∈
      mres (.cat (.cls isEmailLocalChar) (.starG (.cls isEmailLocalChar)))
        (c0 :: lt ++ '@' :: (cd :: dt ++ '.' :: (e ++ rest))) :=
    mem_mres_cat (mem_mres_cls _ (hlc c0 (by simp)))
      (starG_cls_mem _ lt _ (fun c hc => hlc c (by simp [hc])))
  refine mem_mres_cat hloc ?_
  refine mem_mres_cat (mem_mres_cls _ rfl) ?_
  have hdom : ('.' :: (e ++ rest)) ∈
      mres (.cat (.cls isEmailDomainChar) (.starG (.cls isEmailDomainChar)))
        (cd :: dt ++ '.' :: (e ++ rest)) :=
    mem_mres_cat (mem_mres_cls _ (hdc cd (by simp)))
      (starG_cls_mem _ dt _ (fun c hc => hdc c (by simp [hc])))
  refine mem_mres_cat hdom ?_
  refine mem_mres_cat (mem_mres_cls _ rfl) ?_
  show rest ∈ mres (repRange (.cls isAlphaChar) 2 4) (e ++ rest)
  have he : e ++ rest = e.take 2 ++ (e.drop 2 ++ rest) := by
    rw [← List.append_assoc, List.take_append_drop]
  rw [repRange, he]
  refine mem_mres_cat
    (repExact_cls_mem _ 2 (e.take 2) _
      (by simp [List.length_take]; omega)
      (fun c hc => hec c (List.take_subset _ _ hc)))
    (repOpt_cls_mem _ (4 - 2) (e.drop 2) rest
      (by simp [List.length_drop]; omega)
      (fun c hc => hec c (List.drop_subset _ _ hc)))

/-- Soundness of `email_regex`: whatever span it consumes is an email-like
token. -/
theorem email_mres_sound {s rem : List Char} (h : rem ∈ mres email_regex s) :
    ∃ t, s = t ++ rem ∧ isEmailToken t := by
  simp only [email_regex, Regex.plus, Regex.lit, repRange] at h
  obtain ⟨sA, hLoc, hA⟩ := mres_cat_inv h
  obtain ⟨sB, hc0, hstar⟩ := mres_cat_inv hLoc
  obtain ⟨c0, rfl, hc0p⟩ := mres_cls_inv hc0
  obtain ⟨lt, rfl, hltp⟩ := mres_starG_cls_inv _ sB.length sB sA (Nat.le_refl _) hstar
  obtain ⟨sC, hat, hB⟩ := mres_cat_inv hA
  obtain ⟨ca, hAeq, hcap⟩ := mres_cls_inv hat
  have hca : ca = '@' := by simpa using hcap
  subst hca
  obtain ⟨sD, hDom, hC⟩ := mres_cat_inv hB
  obtain ⟨sE, hcd, hdstar⟩ := mres_cat_inv hDom
  obtain ⟨cd, hCeq, hcdp⟩ := mres_cls_inv hcd
  obtain ⟨dt, hEeq, hdtp⟩ := mres_starG_cls_inv _ sE.length sE sD (Nat.le_refl _) hdstar
  obtain ⟨sF, hdot, hD⟩ := mres_cat_inv hC
  obtain ⟨cdot, hDeq, hdotp⟩ := mres_cls_inv hdot
  have hcdot : cdot = '.' := by simpa using hdotp
  subst hcdot
  obtain ⟨sG, hrep2, hrepo⟩ := mres_cat_inv hD
  obtain ⟨e1, hFeq, he1len, he1p⟩ := repExact_cls_inv _ 2 sF sG hrep2
  obtain ⟨e2, hGeq, he2len, he2p⟩ := repOpt_cls_inv _ (4 - 2) sG rem hrepo
  refine ⟨(c0 :: lt) ++ '@' :: ((cd :: dt) ++ '.' :: (e1 ++ e2)), ?_, ?_⟩
  · rw [hAeq, hCeq, hEeq, hDeq, hFeq, hGeq]
    simp [List.append_assoc]
  · refine ⟨c0 :: lt, cd :: dt, e1 ++ e2, rfl, by simp, ?_, by simp, ?_, ?_, ?_, ?_⟩
    · intro c hc
      rcases List.mem_cons.mp hc with hc | hc
      · rw [hc]; exact hc0p
      · exact hltp c hc
    · intro c hc
      rcases List.mem_cons.mp hc with hc | hc
      · rw [hc]; exact hcdp
      · exact hdtp c hc
    · simp [he1len]
    · simp only [List.length_append, he1len]
      omega
    · intro c hc
      rcases List.mem_append.mp hc with hc | hc
      · exact he1p c hc
      · exact he2p c hc

/-- `email_regex` matches somewhere in `s` exactly when an email-like token
occurs somewhere in `s` (and the match can start exactly where a token
starts). -/
theorem email_mres_ne_nil_iff (s : List Char) :
    mres email_regex s ≠ [] ↔ ∃ t rest, isEmailToken t ∧ s = t ++ rest := by
  constructor
  · intro h
    obtain ⟨rem, hrem⟩ := List.exists_mem_of_ne_nil _ h
    obtain ⟨t, hst, htok⟩ := email_mres_sound hrem
    exact ⟨t, rem, htok, hst⟩
  · rintro ⟨t, rest, ⟨l, d, e, rfl, hl, hlc, hd, hdc, he2, he4, hec⟩, rfl⟩
    have hmm : rest ∈ mres email_regex (l ++ '@' :: (d ++ '.' :: (e ++ rest))) :=
      email_mres_complete hl hlc hd hdc he2 he4 hec
    exact List.ne_nil_of_mem (by simpa [List.append_assoc] using hmm)

/-- C1: every line containing a quoted assignment `key = "value"` (or with
single quotes), with no password-related word anywhere on the line, still
produces a non-empty `matchPassword` result: the password token group of the
pattern is starred, so it may match zero times. -/
theorem c1_bare_assignment_matches (k v w : List Char) (q : Char)
    (hq : q = '\'' ∨ q = '\"')
    (hv : ∀ c ∈ v, c ≠ '\n')
    (hnp : hasSubstr "password".data
      ((k ++ ' ' :: '=' :: ' ' :: q :: (v ++ q :: w)).map lowerChar) = false) :
    matchPassword (String.mk (k ++ ' ' :: '=' :: ' ' :: q :: (v ++ q :: w))) ≠ none := by
  have hquote : isQuoteChar q = true := by
    rcases hq with rfl | rfl <;> rfl
  have hdot : ∀ c ∈ v, isDotChar c = true := by
    intro c hc
    simpa [isDotChar] using hv c hc
  have hqv : w ∈ mres quotedValue (q :: (v ++ q :: w)) := by
    refine mem_mres_cat (mem_mres_cls _ hquote) ?_
    exact mem_mres_cat (starL_cls_mem isDotChar v (q :: w) hdot)
      (mem_mres_cls w hquote)
  have hsep : (q :: (v ++ q :: w)) ∈
      mres sepPart ('=' :: ' ' :: q :: (v ++ q :: w)) := by
    refine mem_mres_cat (mem_mres_starG_self _ _) ?_
    exact mem_mres_cat (mem_mres_cls _ rfl)
      (starG_cls_mem isSpaceChar [' '] (q :: (v ++ q :: w)) (by decide))
  have hmem : w ∈ mres sensitive_data_regex ('=' :: ' ' :: q :: (v ++ q :: w)) :=
    mem_mres_cat (mem_mres_starG_self _ _) (mem_mres_cat hsep hqv)
  have hne : mres sensitive_data_regex ('=' :: ' ' :: q :: (v ++ q :: w)) ≠ [] :=
    List.ne_nil_of_mem hmem
  have hsuf : ∃ u, k ++ ' ' :: '=' :: ' ' :: q :: (v ++ q :: w) =
      u ++ ('=' :: ' ' :: q :: (v ++ q :: w)) :=
    ⟨k ++ [' '], by simp⟩
  have hss := searchSpans_ne_none_of_suffix sensitive_data_regex hsuf hne
  intro hnone
  have he : matchPassword (String.mk (k ++ ' ' :: '=' :: ' ' :: q :: (v ++ q :: w))) =
      (searchSpans sensitive_data_regex
        (k ++ ' ' :: '=' :: ' ' :: q :: (v ++ q :: w))).map String.mk := rfl
  rw [he] at hnone
  exact hss (Option.map_eq_none'.mp hnone)

theorem c1_bare_assignment_matches_witness :
    ('\'' = '\'' ∨ '\'' = '\"') ∧
    (∀ c ∈ "y".data, c ≠ '\n') ∧
    hasSubstr "password".data
      (("x".data ++ ' ' :: '=' :: ' ' :: '\'' :: ("y".data ++ '\'' :: ([] : List Char))).map
        lowerChar) = false ∧
    matchPassword (String.mk
      ("x".data ++ ' ' :: '=' :: ' ' :: '\'' :: ("y".data ++ '\'' :: ([] : List Char)))) ≠
      none :=
  ⟨Or.inl rfl, by decide, by decide,
    c1_bare_assignment_matches "x".data "y".data [] '\'' (Or.inl rfl) (by decide) (by decide)⟩

theorem litCIp_lower (ch c : Char) : litCIp ch (lowerChar c) = litCIp ch c := by
  unfold lowerChar
  split <;> rfl

theorem isWordOrDq_lower (c : Char) : isWordOrDq (lowerChar c) = isWordOrDq c := by
  unfold lowerChar
  split <;> rfl

theorem isSpaceChar_lower (c : Char) : isSpaceChar (lowerChar c) = isSpaceChar c := by
  unfold lowerChar
  split <;> rfl

theorem isQuoteChar_lower (c : Char) : isQuoteChar (lowerChar c) = isQuoteChar c := by
  unfold lowerChar
  split <;> rfl

theorem isColonEq_lower (c : Char) : isColonEq (lowerChar c) = isColonEq c := by
  unfold lowerChar
  split <;> rfl

theorem isDotChar_lower (c : Char) : isDotChar (lowerChar c) = isDotChar c := by
  unfold lowerChar
  split <;> rfl

theorem isUnderscoreHyphen_lower (c : Char) :
    isUnderscoreHyphen (lowerChar c) = isUnderscoreHyphen c := by
  unfold lowerChar
  split <;> rfl

/-- All character classes of a regex are insensitive to ASCII case. -/
def CaseBlind : Regex → Prop
  | .eps => True
  | .cls p => ∀ c, p (lowerChar c) = p c
  | .cat r1 r2 => CaseBlind r1 ∧ CaseBlind r2
  | .alt r1 r2 => CaseBlind r1 ∧ CaseBlind r2
  | .starG r => CaseBlind r
  | .starL r => CaseBlind r

theorem caseBlind_strCI (cs : List Char) : CaseBlind (strCI cs) := by
  induction cs with
  | nil => exact trivial
  | cons c t ih => exact ⟨fun x => litCIp_lower c x, ih⟩

theorem caseBlind_sensitive : CaseBlind sensitive_data_regex :=
  ⟨⟨⟨fun c => isWordOrDq_lower c, caseBlind_strCI _, fun c => isWordOrDq_lower c⟩,
      caseBlind_strCI _⟩,
    ⟨fun c => isSpaceChar_lower c, fun c => isColonEq_lower c,
      fun c => isSpaceChar_lower c⟩,
    ⟨fun c => isQuoteChar_lower c, fun c => isDotChar_lower c,
      fun c => isQuoteChar_lower c⟩⟩

theorem caseBlind_api_key : CaseBlind api_key_regex :=
  ⟨caseBlind_strCI _,
    ⟨fun c => isUnderscoreHyphen_lower c, trivial⟩,
    caseBlind_strCI _,
    ⟨fun c => isSpaceChar_lower c, fun c => isColonEq_lower c,
      fun c => isSpaceChar_lower c⟩,
    ⟨fun c => isQuoteChar_lower c, fun c => isDotChar_lower c,
      fun c => isQuoteChar_lower c⟩⟩

theorem forall₂Append {α : Type} {R : α → α → Prop} {l1 l2 l3 l4 : List α}
    (h1 : List.Forall₂ R l1 l2) (h2 : List.Forall₂ R l3 l4) :
    List.Forall₂ R (l1 ++ l3) (l2 ++ l4) := by
  induction h1 with
  | nil => simpa using h2
  | cons hab htl ih =>
      simp only [List.cons_append]
      exact List.Forall₂.cons hab ih

theorem forall₂FlatMap {α β : Type} {R : α → α → Prop} {S : β → β → Prop}
    {l1 l2 : List α} {f g : α → List β}
    (h : List.Forall₂ R l1 l2) (hfg : ∀ a b, R a b → List.Forall₂ S (f a) (g b)) :
    List.Forall₂ S (l1.flatMap f) (l2.flatMap g) := by
  induction h with
  | nil => exact List.Forall₂.nil
  | cons hab htl ih =>
      simp only [List.flatMap_cons]
      exact forall₂Append (hfg _ _ hab) ih

/-- On inputs equal up to ASCII case, a case-blind regex produces match
remainders that again agree up to ASCII case, in the same order. -/
theorem mresF_caseblind : ∀ (n : Nat) (r : Regex) (s1 s2 : List Char),
    CaseBlind r → s1.map lowerChar = s2.map lowerChar →
    List.Forall₂ (fun a b => a.map lowerChar = b.map lowerChar)
      (mresF n r s1) (mresF n r s2) := by
  intro n
  induction n with
  | zero =>
      intro r s1 s2 _ _
      simp only [mresF]
      exact List.Forall₂.nil
  | succ n ih =>
      intro r s1 s2 hcb heq
      cases r with
      | eps =>
          simp only [mresF]
          exact List.Forall₂.cons heq List.Forall₂.nil
      | cls p =>
          cases s1 with
          | nil =>
              cases s2 with
              | nil => simp only [mresF]; exact List.Forall₂.nil
              | cons c2 t2 => simp at heq
          | cons c1 t1 =>
              cases s2 with
              | nil => simp at heq
              | cons c2 t2 =>
                  simp only [List.map_cons, List.cons.injEq] at heq
                  obtain ⟨hc, ht⟩ := heq
                  have hp : p c1 = p c2 := by
                    have h1 := hcb c1
                    have h2 := hcb c2
                    rw [← h1, ← h2, hc]
                  simp only [mresF]
                  rw [hp]
                  by_cases h2 : p c2
                  · simp only [if_pos h2]
                    exact List.Forall₂.cons ht List.Forall₂.nil
                  · simp only [if_neg h2]
                    exact List.Forall₂.nil
      | cat r1 r2 =>
          simp only [mresF]
          exact forall₂FlatMap (ih r1 s1 s2 hcb.1 heq)
            (fun a b hab => ih r2 a b hcb.2 hab)
      | alt r1 r2 =>
          simp only [mresF]
          exact forall₂Append (ih r1 s1 s2 hcb.1 heq) (ih r2 s1 s2 hcb.2 heq)
      | starG r =>
          simp only [mresF]
          have hslen : s1.length = s2.length := by
            have := congrArg List.length heq
            simpa using this
          refine forall₂Append (forall₂FlatMap (ih r s1 s2 hcb heq) ?_)
            (List.Forall₂.cons heq List.Forall₂.nil)
          intro a b hab
          have hlen : a.length = b.length := by
            have := congrArg List.length hab
            simpa using this
          by_cases hlt : a.length < s1.length
          · rw [if_pos hlt, if_pos (by omega)]
            exact ih (.starG r) a b hcb hab
          · rw [if_neg hlt, if_neg (by omega)]
            exact List.Forall₂.nil
      | starL r =>
          simp only [mresF]
          have hslen : s1.length = s2.length := by
            have := congrArg List.length heq
            simpa using this
          refine forall₂Append (List.Forall₂.cons heq List.Forall₂.nil)
            (forall₂FlatMap (ih r s1 s2 hcb heq) ?_)
          intro a b hab
          have hlen : a.length = b.length := by
            have := congrArg List.length hab
            simpa using this
          by_cases hlt : a.length < s1.length
          · rw [if_pos hlt, if_pos (by omega)]
            exact ih (.starL r) a b hcb hab
          · rw [if_neg hlt, if_neg (by omega)]
            exact List.Forall₂.nil

theorem mres_caseblind (r : Regex) (hcb : CaseBlind r) {s1 s2 : List Char}
    (heq : s1.map lowerChar = s2.map lowerChar) :
    List.Forall₂ (fun a b => a.map lowerChar = b.map lowerChar)
      (mres r s1) (mres r s2) := by
  have hlen : s1.length = s2.length := by
    have := congrArg List.length heq
    simpa using this
  rw [mres, mres]
  have hf : fuelB r s2 = fuelB r s1 := by simp [fuelB, hlen]
  rw [hf]
  exact mresF_caseblind (fuelB r s1) r s1 s2 hcb heq

/-- For a case-blind regex, whether the search succeeds depends only on the
input up to ASCII case. -/
theorem searchSpans_caseblind (r : Regex) (hcb : CaseBlind r) :
    ∀ s1 s2 : List Char, s1.map lowerChar = s2.map lowerChar →
    (searchSpans r s1).isSome = (searchSpans r s2).isSome := by
  intro s1
  induction s1 with
  | nil =>
      intro s2 heq
      cases s2 with
      | nil => rfl
      | cons c2 t2 => simp at heq
  | cons c1 t1 ih =>
      intro s2 heq
      cases s2 with
      | nil => simp at heq
      | cons c2 t2 =>
          have hF := mres_caseblind r hcb heq
          simp only [searchSpans]
          cases hh1 : (mres r (c1 :: t1)).head? with
          | some rem1 =>
              have hne2 : mres r (c2 :: t2) ≠ [] := by
                intro hnil
                have hlen := List.Forall₂.length_eq hF
                rw [hnil] at hlen
                simp at hlen
                rw [List.head?_eq_none_iff.mpr hlen] at hh1
                exact absurd hh1 (by simp)
              cases hh2 : (mres r (c2 :: t2)).head? with
              | some rem2 => rfl
              | none => exact absurd (List.head?_eq_none_iff.mp hh2) hne2
          | none =>
              have hne1 : mres r (c1 :: t1) = [] := List.head?_eq_none_iff.mp hh1
              have hlen := List.Forall₂.length_eq hF
              rw [hne1] at hlen
              have hne2 : mres r (c2 :: t2) = [] := by
                cases hmm : mres r (c2 :: t2) with
                | nil => rfl
                | cons a l => rw [hmm] at hlen; simp at hlen
              rw [List.head?_eq_none_iff.mpr hne2]
              simp only [List.map_cons, List.cons.injEq] at heq
              exact ih t2 heq.2

/-- C7: `matchPassword` and `matchApiKey` are case-insensitive in keyword
recognition: changing the case of any token of the line (e.g. `API_KEY` vs
`api_key` vs `Api_Key`, the rest of the line fixed) leaves the match/no-match
outcome identical. -/
theorem c7_keyword_case_invariance (pre kw kw2 post : List Char)
    (h : kw.map lowerChar = kw2.map lowerChar) :
    (matchPassword (String.mk (pre ++ kw ++ post))).isSome =
      (matchPassword (String.mk (pre ++ kw2 ++ post))).isSome ∧
    (matchApiKey (String.mk (pre ++ kw ++ post))).isSome =
      (matchApiKey (String.mk (pre ++ kw2 ++ post))).isSome := by
  have hmap : (pre ++ kw ++ post).map lowerChar = (pre ++ kw2 ++ post).map lowerChar := by
    simp [List.map_append, h]
  constructor
  · have hs := searchSpans_caseblind _ caseBlind_sensitive _ _ hmap
    have e1 : matchPassword (String.mk (pre ++ kw ++ post)) =
        (searchSpans sensitive_data_regex (pre ++ kw ++ post)).map String.mk := rfl
    have e2 : matchPassword (String.mk (pre ++ kw2 ++ post)) =
        (searchSpans sensitive_data_regex (pre ++ kw2 ++ post)).map String.mk := rfl
    rw [e1, e2, Option.isSome_map', Option.isSome_map']
    exact hs
  · have hs := searchSpans_caseblind _ caseBlind_api_key _ _ hmap
    have e1 : matchApiKey (String.mk (pre ++ kw ++ post)) =
        (searchSpans api_key_regex (pre ++ kw ++ post)).map String.mk := rfl
    have e2 : matchApiKey (String.mk (pre ++ kw2 ++ post)) =
        (searchSpans api_key_regex (pre ++ kw2 ++ post)).map String.mk := rfl
    rw [e1, e2, Option.isSome_map', Option.isSome_map']
    exact hs

theorem c7_keyword_case_invariance_witness :
    ("API_KEY".data.map lowerChar = "api_key".data.map lowerChar) ∧
    ((matchPassword (String.mk ("x ".data ++ "API_KEY".data ++ ": 'v'".data))).isSome =
      (matchPassword (String.mk ("x ".data ++ "api_key".data ++ ": 'v'".data))).isSome ∧
     (matchApiKey (String.mk ("x ".data ++ "API_KEY".data ++ ": 'v'".data))).isSome =
      (matchApiKey (String.mk ("x ".data ++ "api_key".data ++ ": 'v'".data))).isSome) :=
  ⟨by decide,
    c7_keyword_case_invariance "x ".data "API_KEY".data "api_key".data ": 'v'".data
      (by decide)⟩

/-- C3: for every line containing at least one syntactically valid email-like
token (localpart of letters/digits/`._%+-`, `@`, domain of
letters/digits/`.-`, a dot, then a 2-4 letter TLD), `matchEmail` returns a
non-empty result equal to the first such token in left-to-right order: the
returned span is itself a valid email-like token, it occurs at position `p`
of the line, no email-like token starts before `p`, and `p` is at most the
position of the given token. -/
theorem c3_email_first_token (s : List Char) (i : Nat) (hex : tokenStartsAt s i) :
    ∃ u p, matchEmail (String.mk s) = some (String.mk u) ∧ isEmailToken u ∧
      (∃ rest, List.drop p s = u ++ rest) ∧
      (∀ j, j < p → ¬ tokenStartsAt s j) ∧ p ≤ i := by
  obtain ⟨t, rest, htok, hdrop⟩ := hex
  have hnei : mres email_regex (List.drop i s) ≠ [] :=
    (email_mres_ne_nil_iff _).mpr ⟨t, rest, htok, hdrop⟩
  have hsome : searchSpans email_regex s ≠ none := fun hn =>
    hnei ((searchSpans_none_iff _ s).mp hn i)
  obtain ⟨u, hu⟩ : ∃ u, searchSpans email_regex s = some u := by
    cases hss : searchSpans email_regex s with
    | none => exact absurd hss hsome
    | some u => exact ⟨u, rfl⟩
  obtain ⟨p, rem, hhead, hdecomp, hmin⟩ := searchSpans_some_spec _ s u hu
  have hmem : rem ∈ mres email_regex (List.drop p s) := mem_of_head?_some hhead
  obtain ⟨t2, ht2eq, ht2tok⟩ := email_mres_sound hmem
  have hut : u = t2 := List.append_cancel_right (hdecomp.symm.trans ht2eq)
  refine ⟨u, p, ?_, hut ▸ ht2tok, ⟨rem, hdecomp⟩, ?_, ?_⟩
  · have he : matchEmail (String.mk s) = (searchSpans email_regex s).map String.mk := rfl
    rw [he, hu]
    rfl
  · intro j hj htj
    obtain ⟨t3, rest3, htok3, hdrop3⟩ := htj
    exact (email_mres_ne_nil_iff _).mpr ⟨t3, rest3, htok3, hdrop3⟩ (hmin j hj)
  · by_contra hpi
    exact hnei (hmin i (by omega))

theorem c3_email_first_token_witness :
    tokenStartsAt "user@host.co".data 0 ∧
    (∃ u p, matchEmail (String.mk "user@host.co".data) = some (String.mk u) ∧
      isEmailToken u ∧
      (∃ rest, List.drop p "user@host.co".data = u ++ rest) ∧
      (∀ j, j < p → ¬ tokenStartsAt "user@host.co".data j) ∧ p ≤ 0) := by
  have htok : tokenStartsAt "user@host.co".data 0 :=
    ⟨"user@host.co".data, [],
      ⟨"user".data, "host".data, "co".data, by decide, by decide, by decide,
        by decide, by decide, by decide, by decide, by decide⟩, by decide⟩
  exact ⟨htok, c3_email_first_token _ 0 htok⟩

/-- C8: for every line that contains no `@` character (hence no
`@`-containing substring), `matchEmail` returns empty. -/
theorem c8_no_at_sign_no_email (s : List Char) (h : ∀ c ∈ s, c ≠ '@') :
    matchEmail (String.mk s) = none := by
  have hss : searchSpans email_regex s = none := by
    rw [searchSpans_none_iff]
    intro n
    by_contra hne
    obtain ⟨t, rest, ⟨l, d, e, hteq, _, _, _, _, _, _, _⟩, hdrop⟩ :=
      (email_mres_ne_nil_iff _).mp hne
    have hat : '@' ∈ List.drop n s := by
      rw [hdrop, hteq]
      simp
    exact h '@' (List.drop_subset _ _ hat) rfl
  have he : matchEmail (String.mk s) = (searchSpans email_regex s).map String.mk := rfl
  rw [he, hss]
  rfl

theorem c8_no_at_sign_no_email_witness :
    (∀ c ∈ "no secrets here".data, c ≠ '@') ∧
    matchEmail (String.mk "no secrets here".data) = none :=
  ⟨by decide, c8_no_at_sign_no_email _ (by decide)⟩

/-- C2 counterexample: the line `user@host.comes` is one whose only
(maximal) email-like token has a 5-letter TLD, yet `matchEmail` returns a
non-empty match: the regex truncates the TLD to its first 4 letters and
matches `user@host.come`. -/
theorem c2_counterexample_five_letter_tld :
    matchEmail "user@host.comes" = some "user@host.come" := by decide

/-- C2 (amended): `matchEmail` matches a TLD of exactly 2, 3 or 4 letters
(`user@host.c` gives no match, `user@host.co`, `.com`, `.come` match in
full); a 1-letter TLD never matches, but a line whose maximal email-like
token has a 5-or-more-letter TLD still yields a match, truncated to the
first 4 TLD letters. -/
theorem c2_email_tld_boundary :
    matchEmail "user@host.c" = none ∧
    matchEmail "user@host.co" = some "user@host.co" ∧
    matchEmail "user@host.com" = some "user@host.com" ∧
    matchEmail "user@host.come" = some "user@host.come" ∧
    matchEmail "a@b.c" = none ∧
    matchEmail "user@host.comes" = some "user@host.come" := by decide

/-- C4 counterexample: for `db_password = "x"` the matcher does return a
match, but the span is `password = "x"`: it does not include the leading
word characters, so it does not contain `db_password`. -/
theorem c4_counterexample_leading_word_chars :
    matchPassword "db_password = \"x\"" = some "password = \"x\"" ∧
    hasSubstr "db_password".data "password = \"x\"".data = false := by decide

/-- C4 (amended): for a keyword with surrounding word characters the match is
non-empty and always contains `password`, but leading word characters are
dropped when the keyword is followed directly by the separator (the
`[\w\"]*password[\w\"]` branch demands a trailing word character or quote);
when such a trailing character is present, e.g. `db_password1 = "x"`, the
span does include the surrounding word characters. -/
theorem c4_password_span_word_chars :
    matchPassword "db_password = \"x\"" = some "password = \"x\"" ∧
    hasSubstr "password".data "password = \"x\"".data = true ∧
    matchPassword "db_password1 = \"x\"" = some "db_password1 = \"x\"" := by decide

/-- C5: for the input line `password = "Sup3rSecret!"`, `matchPassword`
returns the full matched span, keyword, separator and quoted value
included. -/
theorem c5_password_full_span :
    matchPassword "password = \"Sup3rSecret!\"" = some "password = \"Sup3rSecret!\"" := by
  decide

/-- C6: for `API_KEY: "abc123XYZ"` `matchApiKey` returns the full span; in
general it recognizes `api_key`, `api-key` or `apikey` (any case), optional
spaces, `:` or `=`, optional spaces, and a quoted, possibly empty, value in
single or double quotes, returning the full matched span. -/
theorem c6_api_key_full_span :
    matchApiKey "API_KEY: \"abc123XYZ\"" = some "API_KEY: \"abc123XYZ\"" ∧
    matchApiKey "api-key = 'v'" = some "api-key = 'v'" ∧
    matchApiKey "apikey:''" = some "apikey:''" ∧
    matchApiKey "Api_Key  =  \"z\"" = some "Api_Key  =  \"z\"" := by decide

/-- C9: each matcher is a total, pure function of its input line: on every
line it terminates with either a match or an empty result (the two `Option`
outcomes, never an error), and re-running it yields the identical result. -/
theorem c9_matchers_total_pure (line : String) :
    (matchEmail line = matchEmail line ∧ matchPassword line = matchPassword line ∧
      matchApiKey line = matchApiKey line) ∧
    (matchEmail line = none ∨ ∃ t, matchEmail line = some t) ∧
    (matchPassword line = none ∨ ∃ t, matchPassword line = some t) ∧
    (matchApiKey line = none ∨ ∃ t, matchApiKey line = some t) := by
  refine ⟨⟨rfl, rfl, rfl⟩, ?_, ?_, ?_⟩
  · cases h : matchEmail line with
    | none => exact Or.inl rfl
    | some t => exact Or.inr ⟨t, rfl⟩
  · cases h : matchPassword line with
    | none => exact Or.inl rfl
    | some t => exact Or.inr ⟨t, rfl⟩
  · cases h : matchApiKey line with
    | none => exact Or.inl rfl
    | some t => exact Or.inr ⟨t, rfl⟩

/-- C10: in both `matchPassword` and `matchApiKey` the opening and closing
quotes need not agree: an input opened with a single quote and closed with a
double quote still matches. -/
theorem c10_mismatched_quotes :
    matchApiKey "api_key = 'abc\"" = some "api_key = 'abc\"" ∧
    matchPassword "password = 'abc\"" = some "password = 'abc\"" := by decide

end SecretHunter
